import Mathlib

/-!
Verification of the value-chaining and substitution engine of the
`chainer` HAR-to-Postman converter.

The Go source is shallowly embedded: pure functions become Lean functions,
Go slices become `List`, Go `interface{}` JSON data becomes the `Json`
inductive, Go `any` values held in `ValueReference.Value` become `GoValue`,
and fallible code returns `Option`/`Except`.  External collaborators
(the OpenAI naming/locator services and Go standard-library parsers such as
`encoding/json.Unmarshal` and `net/url.Parse`) are passed in as explicit
function parameters, mirroring the call boundary in the source.
-/

namespace Chainer

/-- A decoded JSON document, as produced by Go `encoding/json.Unmarshal`
into `interface{}`: `nil`, `bool`, `float64` (all JSON numbers decode to
`float64`, modelled exactly as rationals), `string`, `[]interface{}` and
`map[string]interface{}` (modelled as an association list). -/
inductive Json where
  | null
  | bool (b : Bool)
  | num (q : ℚ)
  | str (s : String)
  | arr (elems : List Json)
  | obj (fields : List (String × Json))

/-- True on the non-container constructors, i.e. the `default:` branch of
the `switch` in the Go `flatten`. -/
def Json.isLeaf : Json → Bool
  | .arr _ => false
  | .obj _ => false
  | _ => true

/-- True exactly on `Json.arr`. -/
def Json.isArr : Json → Bool
  | .arr _ => true
  | _ => false

/-- A Go `any` value as stored in `ValueReference.Value`: `nil`, `bool`,
`string`, `int`, or `float64` (modelled as an exact rational). -/
inductive GoValue where
  | vNull
  | vBool (b : Bool)
  | vStr (s : String)
  | vInt (n : Int)
  | vFloat (q : ℚ)
deriving DecidableEq, Repr

/-- `SourceType` from `main.go`: request (`iota` = 0) or response. -/
inductive SourceType where
  | request
  | response
deriving DecidableEq, Repr

/-- `SourceLocation` from `main.go`; the Go zero value is
`SourceLocationHeader` (`iota` = 0). -/
inductive SourceLocation where
  | header
  | bodyJson
  | bodyForm
  | url
deriving DecidableEq, Repr

/-- The part of a `*ChainedValueContext` back-pointer that consumers of
`ValueReference.Context` read (`Context.VariableName`); the pointer cycle
of the Go source is broken by storing just this record. -/
structure ChainLink where
  variableName : String := ""
deriving DecidableEq, Repr

/-- `ValueReference` from `main.go`.  `Source` (a `*CallDetails`) is
modelled as an optional index into the list of call details; all other
fields keep their Go zero values as defaults. -/
structure ValueRef where
  value : GoValue := .vNull
  referencePath : String := ""
  urlLocation : Nat := 0
  headerName : String := ""
  source : Option Nat := none
  sourceType : SourceType := .request
  sourceLocation : SourceLocation := .header
  context : Option ChainLink := none
  ancestors : List Json := []

/-- `Header` from the HAR data model. -/
structure Header where
  name : String := ""
  value : String := ""
deriving DecidableEq, Repr

/-- `PostData` from the HAR data model (the `Params` field is not read by
any code under verification and is omitted). -/
structure PostData where
  mimeType : String := ""
  text : String := ""
deriving DecidableEq, Repr

/-- `Request` from the HAR data model. -/
structure GoRequest where
  method : String := ""
  url : String := ""
  postData : Option PostData := none
  headers : List Header := []
deriving DecidableEq, Repr

/-- `Content` from the HAR data model. -/
structure Content where
  mimeType : String := ""
  text : String := ""
deriving DecidableEq, Repr

/-- `Response` from the HAR data model. -/
structure GoResponse where
  status : Int := 0
  statusText : String := ""
  content : Content := {}
  headers : List Header := []
deriving DecidableEq, Repr

/-- `Entry` from the HAR data model. -/
structure Entry where
  request : GoRequest := {}
  response : GoResponse := {}
deriving DecidableEq, Repr

/-- `Log` from the HAR data model. -/
structure Log where
  entries : List Entry := []
deriving DecidableEq, Repr

/-- `HAR`, the root of a HAR file. -/
structure HAR where
  log : Log := {}
deriving DecidableEq, Repr

/-- `CallDetails` from `main.go`.  `Entry` (a `*Entry`) is modelled as an
optional value; the `RequestChainedValues`/`ResponseChainedValues` caches
filled in by `repopulateCallDetails` are not needed by any verified claim
and are omitted from the record. -/
structure CallDetails where
  requestDetails : List ValueRef := []
  responseDetails : List ValueRef := []
  entry : Option Entry := none

/-- `ChainedValueContext` from `main.go`. -/
structure ChainedValueContext where
  value : String := ""
  allUsages : List ValueRef := []
  valueSource : Option ValueRef := none
  variableName : String := ""
  externalSource : Bool := false
  initScript : String := ""

/-! ### Go string-library helpers -/

/-- Character-list core of Go `strings.Contains`: does `sub` occur as a
contiguous run inside `l`? -/
def listContainsSeg : List Char → List Char → Bool
  | l, sub =>
    match l with
    | [] => sub.isEmpty
    | _ :: rest => sub.isPrefixOf l || listContainsSeg rest sub

/-- Go `strings.Contains`. -/
def goContains (s sub : String) : Bool :=
  listContainsSeg s.data sub.data

/-- Go `strings.TrimPrefix(s, pre)`: drop `pre` when it is a prefix,
otherwise return `s` unchanged. -/
def goTrimPrefix (pre s : String) : String :=
  if pre.isPrefixOf s then s.drop pre.length else s

/-- Whitespace recognised by Go `unicode.IsSpace` restricted to ASCII
(the only characters relevant to the verified claims). -/
def isGoSpace (c : Char) : Bool :=
  c = ' ' || c = '\t' || c = '\n' || c = '\x0b' || c = '\x0c' || c = '\r'

/-- Go `strings.TrimSpace` (ASCII whitespace). -/
def goTrimSpace (s : String) : String :=
  String.mk (((s.data.dropWhile isGoSpace).reverse.dropWhile isGoSpace).reverse)

/-- Decimal digit predicate. -/
def isDigitCh (c : Char) : Bool :=
  '0' ≤ c && c ≤ '9'

/-- Digit run to its value, most-significant first. -/
def digitsVal (cs : List Char) : Nat :=
  cs.foldl (fun a c => a * 10 + (c.toNat - 48)) 0

/-- Decimal digits of `n`, most-significant first, empty for `0`; the
first argument is fuel (structural recursion so that the kernel can
evaluate it), and `n` itself is always sufficient fuel. -/
def natDecAux : Nat → Nat → List Char
  | 0, _ => []
  | fuel + 1, n =>
    if n = 0 then [] else natDecAux fuel (n / 10) ++ [Char.ofNat (48 + n % 10)]

/-- Decimal rendering of a natural number, as Go `fmt.Sprintf("%d", n)`
produces for a non-negative `int`. -/
def natDec (n : Nat) : String :=
  if n = 0 then "0" else String.mk (natDecAux n n)

/-- Decimal rendering of a Go `int`. -/
def intDec (n : Int) : String :=
  if n < 0 then "-" ++ natDec n.natAbs else natDec n.natAbs

/-- Go `fmt.Sprintf("%v", x)` for the values stored in
`ValueReference.Value`.  (For `float64` Go uses the shortest `%g` form;
no verified claim depends on the float rendering, and rationals are
printed here as `num/den`.) -/
def goFormat : GoValue → String
  | .vNull => "<nil>"
  | .vBool b => if b then "true" else "false"
  | .vStr s => s
  | .vInt n => intDec n
  | .vFloat q => intDec q.num ++ "/" ++ natDec q.den

/-! ### The interestingness filter (`IsInteresting`, `main.go`) -/

/-- `ValueReference.IsInteresting` from `main.go` (string length is the
Go byte length; the numeric thresholds are the `main.go` values, which
§9 of the spec treats as tunable). -/
def IsInteresting (r : ValueRef) : Bool :=
  if r.value = .vNull then false
  else if goContains r.referencePath "@type" then false
  else if r.headerName = "Content-Type" then false
  else
    match r.value with
    | .vStr s => s.utf8ByteSize ≥ 2
    | .vInt n => n > 1000
    | .vFloat q => q > 1000
    | _ => false

/-! ### Header extraction (`processHeaders`, HAR processing file) -/

/-- `processHeaders` from the HAR-processing source file: drop
blacklisted headers, key every other header by its own name, and strip a
`Bearer ` prefix from `Authorization` values. -/
def processHeaders (headers : List Header) : List ValueRef :=
  headers.flatMap fun h =>
    if ["content-length", "host", "connection", "cache-control",
        "postman-token"].contains h.name.toLower then
      []
    else
      [{ value := .vStr (if h.name.toLower = "authorization" then
            goTrimPrefix "Bearer " h.value else h.value),
         headerName := h.name,
         sourceLocation := .header,
         referencePath := h.name }]

/-- Flattening a per-element `if p then [] else [f x]` is filtering by
`!p` and mapping `f`. -/
theorem flatMap_if_single {α β : Type} (p : α → Bool) (f : α → β) :
    ∀ l : List α,
      (l.flatMap fun x => if p x then [] else [f x]) =
        (l.filter fun x => !(p x)).map f
  | [] => rfl
  | x :: t => by
    rw [List.flatMap_cons, List.filter_cons, flatMap_if_single p f t]
    cases h : p x <;> simp [h]

/-- C5 — every header whose lower-cased name is in the fixed blacklist
(content-length, host, connection, cache-control, postman-token) yields
no extracted value at all; every other header yields exactly one value
keyed by its own name; and for an `Authorization` header
(case-insensitive) a leading `Bearer ` prefix is stripped from the value
before it is recorded. -/
theorem processHeaders_spec (headers : List Header) :
    processHeaders headers =
      (headers.filter fun h =>
          !(["content-length", "host", "connection", "cache-control",
             "postman-token"].contains h.name.toLower)).map
        (fun h =>
          { value := GoValue.vStr (if h.name.toLower = "authorization" then
              goTrimPrefix "Bearer " h.value else h.value),
            headerName := h.name,
            sourceLocation := SourceLocation.header,
            referencePath := h.name }) :=
  flatMap_if_single _ _ headers

/-! ### Chain detection (`findChainedValues`, `main.go`) -/

/-- The interesting value references of all calls, in capture order:
per call, request details then response details, exactly the append
order of the two loops in `findChainedValues`. -/
def interestingRefs (calls : List CallDetails) : List ValueRef :=
  calls.flatMap fun cd =>
    cd.requestDetails.filter IsInteresting ++
      cd.responseDetails.filter IsInteresting

/-- The distinct `fmt.Sprintf("%v", …)` keys of a reference list, in
first-appearance order (the Go code uses a map whose iteration order is
unspecified; every verified claim is order-insensitive). -/
def valueGroupKeys (refs : List ValueRef) : List String :=
  (refs.map fun r => goFormat r.value).foldl
    (fun acc k => if acc.contains k then acc else acc ++ [k]) []

/-- The grouping map `valueOccurrences` of `findChainedValues`: one entry
per distinct key, carrying the references with that string form in
capture order. -/
def valueGroups (calls : List CallDetails) : List (String × List ValueRef) :=
  (valueGroupKeys (interestingRefs calls)).map fun k =>
    (k, (interestingRefs calls).filter fun r => goFormat r.value = k)

/-- Construction of a `ChainedValueContext` from one surviving group, as
in the first filtering loop of `findChainedValues`. -/
def mkChain (g : String × List ValueRef) : ChainedValueContext :=
  { value := g.1, allUsages := g.2 }

/-- The per-group scan automaton of `findChainedValues`: `seenResponse`
and `includeVal` are the two loop-carried booleans; a request-side usage
with no response seen aborts the whole group (`continue NextChainedValue`
returns `false`), a request-side usage after a response sets
`includeVal`, and a response-side usage sets `seenResponse`. -/
def chainScan : List ValueRef → Bool → Bool → Bool
  | [], _, incl => incl
  | u :: rest, seenResponse, incl =>
    if u.sourceType = .request then
      if !seenResponse then false
      else chainScan rest seenResponse true
    else chainScan rest true incl

/-- `findChainedValues` from `main.go`: group interesting values by
string form, keep groups of size > 1, then keep only groups accepted by
the scan automaton. -/
def findChainedValues (calls : List CallDetails) : List ChainedValueContext :=
  (((valueGroups calls).filter fun g => g.2.length > 1).map mkChain).filter
    fun c => chainScan c.allUsages false false

/-- When the scan automaton accepts, every request-side position is
preceded by a response-side position (position 0 in fact), unless a
response had already been seen when the scan started. -/
theorem chainScan_request_preceded (l : List ValueRef) (seen incl : Bool)
    (h : chainScan l seen incl = true) (i : Nat) (hi : i < l.length)
    (hreq : l[i].sourceType = .request) :
    seen = true ∨
      ∃ j, ∃ hj : j < l.length, j < i ∧ l[j].sourceType = .response := by
  cases l with
  | nil => exact absurd hi (by simp)
  | cons u rest =>
    cases hu : u.sourceType with
    | request =>
      cases hseen : seen with
      | false => rw [chainScan, if_pos hu, hseen] at h; simp at h
      | true => exact Or.inl rfl
    | response =>
      cases i with
      | zero => rw [List.getElem_cons_zero] at hreq; rw [hu] at hreq; cases hreq
      | succ k =>
        exact Or.inr ⟨0, by simp, Nat.succ_pos k, by simpa using hu⟩

/-- C1 — for every Chain returned by `findChainedValues`, scanning its
`AllUsages` list in capture order, at least one response-side usage
occurs before every request-side usage; a candidate group whose
first-encountered request-side usage is not preceded by a response-side
usage of the same literal value is discarded and never returned. -/
theorem findChainedValues_causality (calls : List CallDetails)
    (c : ChainedValueContext) (hc : c ∈ findChainedValues calls)
    (i : Nat) (hi : i < c.allUsages.length)
    (hreq : c.allUsages[i].sourceType = .request) :
    ∃ j, ∃ hj : j < c.allUsages.length, j < i ∧
      c.allUsages[j].sourceType = .response := by
  have hscan : chainScan c.allUsages false false = true :=
    (List.mem_filter.mp hc).2
  rcases chainScan_request_preceded c.allUsages false false hscan i hi hreq with
    habs | hok
  · cases habs
  · exact hok

/-- Example fixture: a response-side usage of the literal `abtok1`,
recorded for the first call. -/
def exRespRef : ValueRef :=
  { value := .vStr "abtok1", sourceType := .response, source := some 0 }

/-- Example fixture: a request-side usage of the literal `abtok1`,
recorded for the second call. -/
def exReqRef : ValueRef :=
  { value := .vStr "abtok1", sourceType := .request, source := some 1 }

/-- Example fixture: a two-call capture in which the first call's
response produces `abtok1` and the second call's request consumes it. -/
def exCalls : List CallDetails :=
  [{ responseDetails := [exRespRef] }, { requestDetails := [exReqRef] }]

/-- Example fixture: the single value group of `exCalls`. -/
def exGroup : String × List ValueRef :=
  ("abtok1", [exRespRef, exReqRef])

/-- C1 witness: on the concrete capture `exCalls` the detected chain's
request-side usage at position 1 is preceded by the response-side usage
at position 0. -/
theorem findChainedValues_causality_witness :
    ∃ j, ∃ hj : j < (mkChain exGroup).allUsages.length, j < 1 ∧
      (mkChain exGroup).allUsages[j].sourceType = SourceType.response :=
  findChainedValues_causality exCalls (mkChain exGroup)
    (List.Mem.head _) 1 (by simp [mkChain, exGroup]) rfl

/-- Every request-side usage in the list is preceded by a response-side
usage (the claim's "request-side usage occurring after some
response-side usage" prerequisite for not being early-discarded). -/
def ReqPrecededByResp (l : List ValueRef) : Prop :=
  ∀ i, ∀ hi : i < l.length, l[i].sourceType = .request →
    ∃ j, ∃ hj : j < l.length, j < i ∧ l[j].sourceType = .response

/-- The list contains at least one request-side usage occurring after
some response-side usage. -/
def HasReqAfterResp (l : List ValueRef) : Prop :=
  ∃ i, ∃ hi : i < l.length, ∃ j, ∃ hj : j < l.length, j < i ∧
    l[j].sourceType = .response ∧ l[i].sourceType = .request

/-- A scan started in the `seenResponse` state accepts iff `includeVal`
is already set or some request-side usage remains. -/
theorem chainScan_seen_iff (l : List ValueRef) (incl : Bool) :
    chainScan l true incl = true ↔
      incl = true ∨ ∃ i, ∃ hi : i < l.length, l[i].sourceType = .request := by
  induction l generalizing incl with
  | nil =>
    simp only [chainScan]
    constructor
    · exact fun h => Or.inl h
    · rintro (h | ⟨i, hi, _⟩)
      · exact h
      · exact absurd hi (by simp)
  | cons u rest ih =>
    cases hu : u.sourceType with
    | request =>
      rw [chainScan, if_pos hu]
      simp only [Bool.not_true, Bool.false_eq_true, if_false]
      rw [ih]
      constructor
      · intro _; exact Or.inr ⟨0, by simp, by simpa using hu⟩
      · intro _; exact Or.inl rfl
    | response =>
      rw [chainScan, if_neg (by rw [hu]; exact fun h => nomatch h)]
      rw [ih]
      constructor
      · rintro (h | ⟨i, hi, hr⟩)
        · exact Or.inl h
        · exact Or.inr ⟨i + 1, by simpa using hi, by simpa using hr⟩
      · rintro (h | ⟨i, hi, hr⟩)
        · exact Or.inl h
        · cases i with
          | zero => rw [List.getElem_cons_zero, hu] at hr; cases hr
          | succ k =>
            exact Or.inr ⟨k, by simpa using hi, by simpa using hr⟩

/-- Characterization of the full scan from the initial state: it accepts
iff no request-side usage precedes every response-side usage and some
request-side usage follows a response-side usage. -/
theorem chainScan_accepts_iff (l : List ValueRef) :
    chainScan l false false = true ↔ ReqPrecededByResp l ∧ HasReqAfterResp l := by
  cases l with
  | nil =>
    simp only [chainScan]
    constructor
    · intro h; cases h
    · rintro ⟨_, i, hi, _⟩; exact absurd hi (by simp)
  | cons u rest =>
    cases hu : u.sourceType with
    | request =>
      rw [chainScan, if_pos hu]
      simp only [Bool.not_false, if_true]
      constructor
      · intro h; cases h
      · rintro ⟨hpre, _⟩
        rcases hpre 0 (by simp) (by simpa using hu) with ⟨j, hj, hji, _⟩
        exact absurd hji (by omega)
    | response =>
      rw [chainScan, if_neg (by rw [hu]; exact fun h => nomatch h)]
      rw [chainScan_seen_iff]
      constructor
      · rintro (h | ⟨i, hi, hr⟩)
        · cases h
        · refine ⟨?_, i + 1, by simpa using hi, 0, by simp, by omega,
            by simpa using hu, by simpa using hr⟩
          intro k hk hreq
          cases k with
          | zero => rw [List.getElem_cons_zero, hu] at hreq; cases hreq
          | succ m => exact ⟨0, by simp, by omega, by simpa using hu⟩
      · rintro ⟨hpre, i, hi, j, hj, hji, hjresp, hireq⟩
        cases i with
        | zero => exact absurd hji (by omega)
        | succ k =>
          exact Or.inr ⟨k, by simpa using hi, by simpa using hireq⟩

/-- `mkChain` determines its argument. -/
theorem mkChain_injective (a b : String × List ValueRef)
    (h : mkChain a = mkChain b) : a = b := by
  cases a; cases b
  simpa [mkChain, ChainedValueContext.mk.injEq, Prod.ext_iff] using h

/-- Counterexample input for C2: the literal `tok42` occurs in the first
call's request, the first call's response, and the second call's
request, so its group has three members and its third member is a
request-side usage occurring after the response-side second member. -/
def cex2Calls : List CallDetails :=
  [{ requestDetails :=
       [{ value := .vStr "tok42", sourceType := .request, source := some 0 }],
     responseDetails :=
       [{ value := .vStr "tok42", sourceType := .response, source := some 0 }] },
   { requestDetails :=
       [{ value := .vStr "tok42", sourceType := .request, source := some 1 }] }]

/-- C2 counterexample — on `cex2Calls` the single candidate group has
more than one member and contains a request-side usage (capture position
2) occurring after a response-side usage (capture position 1), yet
`findChainedValues` returns no Chain at all, because the group's first
member is a request-side usage with no preceding response; so "promoted
if and only if size > 1 and some request follows some response" is
false. -/
theorem findChainedValues_promotion_counterexample :
    findChainedValues cex2Calls = [] ∧
      (valueGroups cex2Calls).map
          (fun g => (g.1, g.2.length, g.2.map fun r => r.sourceType)) =
        [("tok42", 3,
          [SourceType.request, SourceType.response, SourceType.request])] := by
  constructor
  · rfl
  · rfl

/-- C2 amended — `findChainedValues` promotes a group to a Chain iff the
group has more than one member, every request-side member is preceded
(in capture order) by a response-side member, and at least one
request-side member occurs after some response-side member; in
particular a group of size 1, or an all-response group, is never
returned. -/
theorem findChainedValues_promotion (calls : List CallDetails)
    (g : String × List ValueRef) (hg : g ∈ valueGroups calls) :
    mkChain g ∈ findChainedValues calls ↔
      g.2.length > 1 ∧ ReqPrecededByResp g.2 ∧ HasReqAfterResp g.2 := by
  have husages : (mkChain g).allUsages = g.2 := rfl
  rw [findChainedValues, List.mem_filter, husages, chainScan_accepts_iff]
  constructor
  · rintro ⟨hmem, hscan⟩
    rcases List.mem_map.mp hmem with ⟨g2, hg2, heq⟩
    have : g2 = g := mkChain_injective _ _ heq
    subst this
    have hlen : g2.2.length > 1 := by
      simpa using (List.mem_filter.mp hg2).2
    exact ⟨hlen, hscan⟩
  · rintro ⟨hlen, hscan⟩
    refine ⟨List.mem_map.mpr ⟨g, List.mem_filter.mpr ⟨hg, by simpa using hlen⟩,
      rfl⟩, hscan⟩

/-- C2 witness: instantiating the amended promotion criterion on the
concrete capture `exCalls` and its single group `exGroup`. -/
theorem findChainedValues_promotion_witness :
    mkChain exGroup ∈ findChainedValues exCalls ↔
      exGroup.2.length > 1 ∧ ReqPrecededByResp exGroup.2 ∧
        HasReqAfterResp exGroup.2 :=
  findChainedValues_promotion exCalls exGroup (List.Mem.head _)

/-! ### Linking chains back to calls (`repopulateCallDetails`, `main.go`) -/

/-- `repopulateCallDetails` from `main.go`, restricted to its effect on
the chains themselves: for each chain it walks `AllUsages` in order and,
for the first response-side usage whose `Source` is non-nil, fills a
still-unset `ValueSource`.  (The function also appends each usage to its
call's `RequestChainedValues`/`ResponseChainedValues` caches and sets the
usage's `Context` back-pointer; no verified claim reads those caches, so
they are not modelled.) -/
def repopulateCallDetails (chains : List ChainedValueContext) :
    List ChainedValueContext :=
  chains.map fun c =>
    { c with
      valueSource :=
        match c.valueSource with
        | some v => some v
        | none =>
          c.allUsages.find? fun u =>
            u.source.isSome && decide (u.sourceType = SourceType.response) }

/-- Dropping an always-true conjunct from a `find?` predicate. -/
theorem find_conj_of_all {α : Type} (q p : α → Bool) :
    ∀ l : List α, (∀ x ∈ l, q x = true) →
      (l.find? fun x => q x && p x) = l.find? p
  | [], _ => rfl
  | x :: t, h => by
    rw [List.find?, List.find?, h x (List.Mem.head _)]
    cases hp : p x
    · simpa using find_conj_of_all q p t fun y hy => h y (List.Mem.tail _ hy)
    · simp

/-- C3 — after `repopulateCallDetails` runs on detected chains (whose
`ValueSource` starts out nil and whose usages all carry a source call),
every chain that has a response-side usage gets its `ValueSource` set to
the first response-side member of `AllUsages` in scan order, and that
`ValueSource` is response-side. -/
theorem repopulateCallDetails_valueSource (chains : List ChainedValueContext)
    (i : Nat) (c : ChainedValueContext) (hc : chains[i]? = some c)
    (hvs : c.valueSource = none)
    (hsrc : ∀ u ∈ c.allUsages, u.source.isSome = true)
    (hresp : ∃ u ∈ c.allUsages, u.sourceType = .response) :
    ∃ u,
      (repopulateCallDetails chains)[i]? =
          some { c with valueSource := some u } ∧
        (c.allUsages.find? fun x => decide (x.sourceType = SourceType.response))
            = some u ∧
        u.sourceType = .response := by
  have hfind :
      (c.allUsages.find? fun u =>
          u.source.isSome && decide (u.sourceType = SourceType.response)) =
        c.allUsages.find? fun x => decide (x.sourceType = SourceType.response) :=
    find_conj_of_all _ _ c.allUsages hsrc
  have hsome :
      ((c.allUsages.find?
          fun x => decide (x.sourceType = SourceType.response)).isSome) := by
    rw [List.find?_isSome]
    rcases hresp with ⟨u, hu, hru⟩
    exact ⟨u, hu, by simpa using hru⟩
  rcases Option.isSome_iff_exists.mp hsome with ⟨u, hu⟩
  refine ⟨u, ?_, hu, ?_⟩
  · rw [repopulateCallDetails, List.getElem?_map, hc]
    refine congrArg some ?_
    simp only [hvs]
    rw [hfind, hu]
  · simpa using List.find?_some hu

/-- Example fixture: a one-chain input for `repopulateCallDetails` whose
single usage is response-side with a non-nil source. -/
def exChainForRepop : ChainedValueContext :=
  { value := "abtok1", allUsages := [exRespRef] }

/-- C3 witness: on the concrete chain `exChainForRepop`,
`repopulateCallDetails` fills `ValueSource` with the first (and only)
response-side usage. -/
theorem repopulateCallDetails_valueSource_witness :
    ∃ u,
      (repopulateCallDetails [exChainForRepop])[0]? =
          some { exChainForRepop with valueSource := some u } ∧
        (exChainForRepop.allUsages.find?
            fun x => decide (x.sourceType = SourceType.response)) = some u ∧
        u.sourceType = SourceType.response :=
  repopulateCallDetails_valueSource [exChainForRepop] 0 exChainForRepop rfl rfl
    (fun u hu => by
      cases hu with
      | head => rfl
      | tail _ hh => cases hh)
    ⟨exRespRef, List.Mem.head _, rfl⟩

/-! ### Variable naming (`AssignVariableNames`, `var_names.go`) -/

/-- `AssignVariableNames` from `var_names.go`, with the naming
collaborator's reply passed in: `none` models an unparseable reply (the
`json.Unmarshal` of the choice text fails), `some names` a parsed batch.
Each `log.Fatalf` in the source aborts the process and is modelled as an
`Except.error` carrying the log message; on success each chain receives
the positionally corresponding name. -/
def AssignVariableNames (chains : List ChainedValueContext)
    (collabNames : Option (List String)) :
    Except String (List ChainedValueContext) :=
  match collabNames with
  | none => .error "Error unmarshalling variable names response"
  | some names =>
    if names.length ≠ chains.length then
      .error "Mismatch between number of variable names and chained values"
    else
      .ok ((chains.zip names).map fun cn => { cn.1 with variableName := cn.2 })

/-- C4 — evaluating `AssignVariableNames` at the failing input of the
claim (a batch of length 0 for 2 input chains): the code aborts fatally
with the mismatch message instead of assigning deterministic fallback
names and continuing, contradicting the claim and §8 scenario 8 of the
spec. -/
theorem assignVariableNames_mismatch_is_fatal :
    AssignVariableNames [{ value := "a1" }, { value := "b2" }] (some []) =
      .error "Mismatch between number of variable names and chained values" :=
  rfl

/-- C10 — a `ValueReference` whose value is neither a string, an int nor
a float — in particular every JSON boolean, and nil — is never
interesting, so such values cannot participate in chain detection. -/
theorem isInteresting_rejects_bool_and_null (r : ValueRef)
    (h : r.value = GoValue.vNull ∨ ∃ b, r.value = GoValue.vBool b) :
    IsInteresting r = false := by
  rcases h with h | ⟨b, h⟩ <;> simp [IsInteresting, h]

/-- C10 witness: a boolean-valued reference is rejected. -/
theorem isInteresting_rejects_bool_and_null_witness :
    IsInteresting { value := GoValue.vBool true } = false :=
  isInteresting_rejects_bool_and_null _ (Or.inr ⟨true, rfl⟩)

/-! ### Substitution (`ReplaceValuesInString`, Postman-collection file) -/

/-- Character-list core of Go `strings.ReplaceAll` for a non-empty
pattern: scan left to right, replacing each non-overlapping occurrence of
`p :: ps` by `rep`. -/
def replaceSeg (rep : List Char) (p : Char) (ps : List Char) :
    List Char → List Char
  | [] => []
  | c :: rest =>
    if (p :: ps).isPrefixOf (c :: rest) then
      rep ++ replaceSeg rep p ps (rest.drop ps.length)
    else
      c :: replaceSeg rep p ps rest
termination_by l => l.length
decreasing_by
  · simp only [List.length_cons]
    have := List.length_drop ps.length rest
    omega
  · simp

/-- Go `strings.ReplaceAll(s, pat, rep)`; for an empty pattern Go inserts
`rep` before every character and once at the end. -/
def goReplaceAll (s pat rep : String) : String :=
  match pat.data with
  | [] => String.mk (rep.data ++ s.data.flatMap fun c => c :: rep.data)
  | p :: ps => String.mk (replaceSeg rep.data p ps s.data)

/-- `ReplaceValuesInString` from the Postman-collection source file: fold
over the chained value references; a reference with a nil `Context` is
skipped (logged in Go); otherwise every occurrence of the value's string
form is replaced by the placeholder of the context's variable name. -/
def ReplaceValuesInString (input : String) (refs : List ValueRef) : String :=
  refs.foldl
    (fun inp v =>
      match v.context with
      | none => inp
      | some ctx =>
        goReplaceAll inp (goFormat v.value)
          ("\x7b\x7b" ++ ctx.variableName ++ "\x7d\x7d"))
    input

/-- If a non-empty pattern does not occur as a contiguous run, the
replacement scan leaves the characters unchanged. -/
theorem replaceSeg_of_not_contains (rep : List Char) (p : Char)
    (ps : List Char) :
    ∀ l : List Char, listContainsSeg l (p :: ps) = false →
      replaceSeg rep p ps l = l
  | [], _ => by simp [replaceSeg]
  | c :: rest, h => by
    rw [listContainsSeg] at h
    rcases Bool.or_eq_false_iff.mp h with ⟨h1, h2⟩
    rw [replaceSeg, if_neg (by simp [h1]),
      replaceSeg_of_not_contains rep p ps rest h2]

/-- A string never contains a run that its own scan misses. -/
theorem goReplaceAll_of_not_contains (s pat rep : String)
    (h : goContains s pat = false) : goReplaceAll s pat rep = s := by
  rw [goReplaceAll]
  cases hp : pat.data with
  | nil =>
    exfalso
    rw [goContains, hp] at h
    cases s with
    | mk data =>
      cases data with
      | nil => rw [listContainsSeg] at h; simp at h
      | cons c cs => rw [listContainsSeg] at h; simp [List.isPrefixOf] at h
  | cons p ps =>
    rw [goContains, hp] at h
    show String.mk (replaceSeg rep.data p ps s.data) = s
    rw [replaceSeg_of_not_contains rep.data p ps s.data h]

/-- C7 — if none of the references' value strings occurs as a substring
of the input, `ReplaceValuesInString` returns the input unchanged. -/
theorem replaceValuesInString_identity (input : String) (refs : List ValueRef)
    (h : ∀ v ∈ refs, goContains input (goFormat v.value) = false) :
    ReplaceValuesInString input refs = input := by
  induction refs with
  | nil => rfl
  | cons v rest ih =>
    have htail : ∀ x ∈ rest, goContains input (goFormat x.value) = false :=
      fun x hx => h x (List.Mem.tail _ hx)
    simp only [ReplaceValuesInString, List.foldl_cons]
    cases hctx : v.context with
    | none =>
      exact ih htail
    | some ctx =>
      show List.foldl _
        (goReplaceAll input (goFormat v.value)
          ("\x7b\x7b" ++ ctx.variableName ++ "\x7d\x7d")) rest = input
      rw [goReplaceAll_of_not_contains input _ _ (h v (List.Mem.head _))]
      exact ih htail

/-- C7 witness: a concrete input containing none of the chain literals is
returned unchanged. -/
theorem replaceValuesInString_identity_witness :
    ReplaceValuesInString "plain body text"
      [{ value := .vStr "abtok1", context := some { variableName := "tok" } }]
      = "plain body text" :=
  replaceValuesInString_identity "plain body text"
    [{ value := .vStr "abtok1", context := some { variableName := "tok" } }]
    (fun v hv => by
      cases hv with
      | head => rfl
      | tail _ hh => cases hh)

/-! ### Locator paths (`var_paths.go`) -/

/-- Go `fmt.Sscanf(s, "%d", &idx)` restricted to its use in
`parseArrayKey`: an optional minus sign followed by at least one decimal
digit; trailing non-digit characters are ignored, as `Sscanf` ignores
them after a successful `%d` conversion. -/
def parseGoInt (cs : List Char) : Option Int :=
  match cs with
  | [] => none
  | c :: rest =>
    if c = '-' then
      let ds := rest.takeWhile isDigitCh
      if ds.isEmpty then none else some (-(digitsVal ds : Int))
    else
      let ds := (c :: rest).takeWhile isDigitCh
      if ds.isEmpty then none else some ((digitsVal ds : Int))

/-- `splitPathTokens` character-list core: Go `strings.Split(s, ".")`. -/
def splitOnDotCh : List Char → List (List Char)
  | [] => [[]]
  | c :: rest =>
    if c = '.' then [] :: splitOnDotCh rest
    else
      match splitOnDotCh rest with
      | [] => [[c]]
      | g :: gs => (c :: g) :: gs

/-- `splitPathTokens` from `var_paths.go`: the empty path has no tokens,
otherwise split on every dot. -/
def splitPathTokens (s : String) : List String :=
  if s = "" then [] else (splitOnDotCh s.data).map String.mk

/-- Go `strings.IndexRune`: position of the first occurrence of a
character, if any. -/
def indexOfCh (target : Char) : List Char → Option Nat
  | [] => none
  | c :: rest =>
    if c = target then some 0 else (indexOfCh target rest).map (· + 1)

/-- `parseArrayKey` from `var_paths.go`: classify a token as a bare key
(`.ok (key, none)`), a key with one bracketed index (`.ok (key, some i)`,
the key may be empty for a token such as `[2]`), or an error
(mismatched brackets, empty index, unparseable index). -/
def parseArrayKey (token : String) : Except String (String × Option Int) :=
  match indexOfCh '[' token.data with
  | none => .ok (token, none)
  | some start =>
    match indexOfCh ']' token.data with
    | none => .error "mismatched brackets in token"
    | some stop =>
      if stop < start then .error "mismatched brackets in token"
      else
        if ((token.data.take stop).drop (start + 1)).isEmpty then
          .error "empty array index in token"
        else
          match parseGoInt ((token.data.take stop).drop (start + 1)) with
          | none => .error "unable to parse index in token"
          | some idx => .ok (String.mk (token.data.take start), some idx)

/-- First field with the given key, as a Go `map[string]interface{}`
lookup behaves on the association-list model (keys produced by
`encoding/json` are unique). -/
def lookupField (fields : List (String × Json)) (key : String) : Option Json :=
  (fields.find? fun kv => kv.1 = key).map fun kv => kv.2

/-- Resolution of a token list against a document, following the
descent of `pruneJSON`/`parseArrayKey` in `var_paths.go`: a key token
selects an object field; a bracketed token selects an object field and
then an array element (the key part is ignored when the current node is
itself an array); any mismatch fails. -/
def resolvePath (doc : Json) : List String → Option Json
  | [] => some doc
  | tok :: rest =>
    match parseArrayKey tok with
    | .error _ => none
    | .ok (key, none) =>
      match doc with
      | .obj fields =>
        match lookupField fields key with
        | some child => resolvePath child rest
        | none => none
      | _ => none
    | .ok (key, some idx) =>
      match doc with
      | .obj fields =>
        match lookupField fields key with
        | some (.arr elems) =>
          if h : 0 ≤ idx ∧ idx.toNat < elems.length then
            resolvePath (elems.get ⟨idx.toNat, h.2⟩) rest
          else none
        | _ => none
      | .arr elems =>
        if h : 0 ≤ idx ∧ idx.toNat < elems.length then
          resolvePath (elems.get ⟨idx.toNat, h.2⟩) rest
        else none
      | _ => none

/-! ### JSON flattening (`FlattenJSON`/`flatten`, HAR processing file) -/

/-- The Go `interface{}` leaf stored by `flatten` into
`ValueReference.Value`: `encoding/json` decodes JSON scalars to `nil`,
`bool`, `float64` and `string`. -/
def leafToValue : Json → GoValue
  | .null => .vNull
  | .bool b => .vBool b
  | .num q => .vFloat q
  | .str s => .vStr s
  | .arr _ => .vNull
  | .obj _ => .vNull

mutual

/-- `flatten` from the HAR-processing source file: recursively walk the
decoded JSON; object keys join onto the prefix with `.`, array elements
append `[i]`, and each leaf yields one `ValueReference` whose
`ReferencePath` is the accumulated prefix and whose `Ancestors` are the
enclosing containers, outermost first. -/
def flatten (pre : String) (ancestors : List Json) : Json → List ValueRef
  | .obj fields => flattenFields pre (ancestors ++ [.obj fields]) fields
  | .arr elems => flattenElems pre (ancestors ++ [.arr elems]) 0 elems
  | leaf =>
    [{ value := leafToValue leaf,
       referencePath := pre,
       urlLocation := 0,
       ancestors := ancestors,
       sourceLocation := .bodyJson }]

/-- The object loop of `flatten` (Go iterates the map in unspecified
order; the association list fixes one order, and every verified claim is
order-insensitive). -/
def flattenFields (pre : String) (anc : List Json) :
    List (String × Json) → List ValueRef
  | [] => []
  | (k, v) :: rest =>
    flatten (if pre = "" then k else pre ++ "." ++ k) anc v ++
      flattenFields pre anc rest

/-- The array loop of `flatten`; `i` is the running element index. -/
def flattenElems (pre : String) (anc : List Json) :
    Nat → List Json → List ValueRef
  | _, [] => []
  | i, v :: rest =>
    flatten (pre ++ "[" ++ natDec i ++ "]") anc v ++
      flattenElems pre anc (i + 1) rest

end

/-- Counterexample document for C6: an object whose `a` field is an
array containing an array containing the leaf `"xy"`. -/
def cexDoc : Json :=
  .obj [("a", .arr [.arr [.str "xy"]])]

/-- C6 counterexample — flattening `cexDoc` yields exactly one locator
path, `a[0][0]`, for the leaf `"xy"`, but resolving that path against
`cexDoc` returns the inner array `["xy"]` (`parseArrayKey` reads only
the first bracket group of the token), not the original leaf, so the
round-trip claim is false for nested arrays. -/
theorem flatten_roundtrip_counterexample :
    (flatten "" [] cexDoc).map (fun r => (r.referencePath, r.value)) =
        [("a[0][0]", GoValue.vStr "xy")] ∧
      resolvePath cexDoc (splitPathTokens "a[0][0]") =
        some (Json.arr [Json.str "xy"]) := by
  constructor
  · simp [cexDoc, flatten, flattenFields, flattenElems, natDec, natDecAux,
      leafToValue]
  · simp [cexDoc, resolvePath, splitPathTokens, splitOnDotCh, parseArrayKey,
      parseGoInt, isDigitCh, digitsVal, lookupField, indexOfCh]

/-! ### Arithmetic facts about the decimal rendering of array indices -/

/-- The digit characters emitted by `natDecAux` have the expected code
point. -/
theorem toNat_ofNat_digit (d : Nat) (hd : d < 10) :
    (Char.ofNat (48 + d)).toNat = 48 + d := by
  interval_cases d <;> rfl

/-- The digit characters emitted by `natDecAux` satisfy `isDigitCh`. -/
theorem isDigitCh_ofNat_digit (d : Nat) (hd : d < 10) :
    isDigitCh (Char.ofNat (48 + d)) = true := by
  interval_cases d <;> rfl

/-- A digit character is not a dot, bracket, or minus sign. -/
theorem digit_ne_special (c : Char) (h : isDigitCh c = true) :
    c ≠ '.' ∧ c ≠ '[' ∧ c ≠ ']' ∧ c ≠ '-' := by
  refine ⟨?_, ?_, ?_, ?_⟩ <;> intro hc <;> rw [hc] at h <;> exact absurd h (by decide)

/-- Appending one digit multiplies the accumulated value by ten. -/
theorem digitsVal_append (xs : List Char) (c : Char) :
    digitsVal (xs ++ [c]) = digitsVal xs * 10 + (c.toNat - 48) := by
  simp [digitsVal, List.foldl_append]

/-- All characters produced by `natDecAux` are digits. -/
theorem natDecAux_all_digits :
    ∀ fuel n, (natDecAux fuel n).all isDigitCh = true
  | 0, _ => rfl
  | fuel + 1, n => by
    rw [natDecAux]
    by_cases hn : n = 0
    · rw [if_pos hn]; rfl
    · rw [if_neg hn, List.all_append]
      rw [natDecAux_all_digits fuel (n / 10)]
      simp [isDigitCh_ofNat_digit (n % 10) (Nat.mod_lt n (by omega))]

/-- With enough fuel, `natDecAux` renders exactly its input. -/
theorem natDecAux_val :
    ∀ fuel n, n ≤ fuel → digitsVal (natDecAux fuel n) = n
  | 0, n, h => by
    interval_cases n
    rfl
  | fuel + 1, n, h => by
    rw [natDecAux]
    by_cases hn : n = 0
    · rw [if_pos hn]; simpa [digitsVal] using hn.symm
    · rw [if_neg hn, digitsVal_append,
        natDecAux_val fuel (n / 10) (by omega),
        toNat_ofNat_digit (n % 10) (Nat.mod_lt n (by omega))]
      omega

/-- `natDecAux` is nonempty on positive input with positive fuel. -/
theorem natDecAux_ne_nil (fuel n : Nat) (hn : n ≠ 0) :
    natDecAux (fuel + 1) n ≠ [] := by
  rw [natDecAux, if_neg hn]
  simp

/-- The rendered decimal string: nonempty and all digits. -/
theorem natDec_digits (n : Nat) :
    (natDec n).data ≠ [] ∧ (natDec n).data.all isDigitCh = true := by
  rw [natDec]
  by_cases hn : n = 0
  · rw [if_pos hn]; exact ⟨by simp, rfl⟩
  · rw [if_neg hn]
    refine ⟨?_, ?_⟩
    · show natDecAux n n ≠ []
      obtain ⟨m, rfl⟩ := Nat.exists_eq_succ_of_ne_zero hn
      exact natDecAux_ne_nil m (m + 1) hn
    · show (natDecAux n n).all isDigitCh = true
      exact natDecAux_all_digits n n

/-- Taking while a predicate that holds everywhere keeps everything. -/
theorem takeWhile_all_eq {α : Type} (p : α → Bool) :
    ∀ l : List α, l.all p = true → l.takeWhile p = l
  | [], _ => rfl
  | x :: rest, h => by
    rw [List.all_cons, Bool.and_eq_true] at h
    rw [List.takeWhile_cons, if_pos h.1, takeWhile_all_eq p rest h.2]

/-- Round trip: parsing the decimal rendering of `n` recovers `n`. -/
theorem parseGoInt_natDec (n : Nat) :
    parseGoInt (natDec n).data = some (n : Int) := by
  rcases natDec_digits n with ⟨hne, hall⟩
  have hval : digitsVal (natDec n).data = n := by
    rw [natDec]
    by_cases hn : n = 0
    · rw [if_pos hn, hn]; rfl
    · rw [if_neg hn]
      exact natDecAux_val n n le_rfl
  cases hd : (natDec n).data with
  | nil => exact absurd hd hne
  | cons c rest =>
    have hcdig : isDigitCh c = true := by
      rw [hd, List.all_cons, Bool.and_eq_true] at hall
      exact hall.1
    have hcne : c ≠ '-' := (digit_ne_special c hcdig).2.2.2
    have htw : (c :: rest).takeWhile isDigitCh = c :: rest := by
      rw [← hd]
      exact takeWhile_all_eq _ _ hall
    rw [parseGoInt, if_neg hcne]
    show (if ((c :: rest).takeWhile isDigitCh).isEmpty then none
        else some ((digitsVal ((c :: rest).takeWhile isDigitCh) : Int))) =
      some (n : Int)
    rw [htw, if_neg (by simp)]
    rw [hd] at hval
    rw [hval]

/-! ### Splitting and token-parsing lemmas -/

/-- A string is empty iff its character list is. -/
theorem string_eq_empty_iff (s : String) : s = "" ↔ s.data = [] := by
  constructor
  · intro h
    rw [h]
  · intro h
    cases s with
    | mk data =>
      have hdata : data = [] := h
      rw [hdata]

/-- Appending strings appends their character lists. -/
theorem string_data_append (a b : String) : (a ++ b).data = a.data ++ b.data := by
  cases a; cases b; rfl

/-- `String.mk` is left inverse to `String.data`. -/
theorem string_mk_data (s : String) : String.mk s.data = s := rfl

/-- Splitting on dots never yields the empty group list. -/
theorem splitOnDotCh_ne_nil : ∀ l : List Char, splitOnDotCh l ≠ []
  | [] => by rw [splitOnDotCh]; simp
  | c :: rest => by
    rw [splitOnDotCh]
    by_cases hc : c = '.'
    · rw [if_pos hc]; simp
    · rw [if_neg hc]
      cases hsp : splitOnDotCh rest with
      | nil => simp
      | cons g gs => simp

/-- A dot-free character list splits into a single group. -/
theorem splitOnDotCh_nodot :
    ∀ l : List Char, (∀ c ∈ l, c ≠ '.') → splitOnDotCh l = [l]
  | [], _ => rfl
  | c :: rest, h => by
    rw [splitOnDotCh, if_neg (h c (List.Mem.head _)),
      splitOnDotCh_nodot rest fun x hx => h x (List.Mem.tail _ hx)]

/-- Splitting at an explicit dot with a dot-free tail appends one
group. -/
theorem splitOnDotCh_append_dot :
    ∀ p k : List Char, (∀ c ∈ k, c ≠ '.') →
      splitOnDotCh (p ++ '.' :: k) = splitOnDotCh p ++ [k]
  | [], k, hk => by
    rw [List.nil_append]
    simp only [splitOnDotCh, if_pos rfl, splitOnDotCh_nodot k hk]
    rfl
  | c :: p, k, hk => by
    rw [List.cons_append]
    simp only [splitOnDotCh]
    by_cases hc : c = '.'
    · rw [if_pos hc, if_pos hc, splitOnDotCh_append_dot p k hk]
      rfl
    · rw [if_neg hc, if_neg hc, splitOnDotCh_append_dot p k hk]
      cases hsp : splitOnDotCh p with
      | nil => exact absurd hsp (splitOnDotCh_ne_nil p)
      | cons g gs => rfl

/-- A character absent from a list is never found. -/
theorem indexOfCh_none (t : Char) :
    ∀ l : List Char, (∀ c ∈ l, c ≠ t) → indexOfCh t l = none
  | [], _ => rfl
  | c :: rest, h => by
    rw [indexOfCh, if_neg (h c (List.Mem.head _)),
      indexOfCh_none t rest fun x hx => h x (List.Mem.tail _ hx)]
    rfl

/-- The first occurrence after a clean left part is found at the left
part's length. -/
theorem indexOfCh_first (t : Char) :
    ∀ l1 : List Char, ∀ l2 : List Char, (∀ c ∈ l1, c ≠ t) →
      indexOfCh t (l1 ++ t :: l2) = some l1.length
  | [], l2, _ => by rw [List.nil_append, indexOfCh, if_pos rfl]; rfl
  | c :: l1, l2, h => by
    rw [List.cons_append, indexOfCh, if_neg (h c (List.Mem.head _)),
      indexOfCh_first t l1 l2 fun x hx => h x (List.Mem.tail _ hx)]
    rfl

/-- A bare key token (no opening bracket) parses to itself. -/
theorem parseArrayKey_plain (k : String) (hk : ∀ c ∈ k.data, c ≠ '[') :
    parseArrayKey k = .ok (k, none) := by
  rw [parseArrayKey, indexOfCh_none '[' k.data hk]

/-- A clean key followed by one bracketed decimal index parses to the
key and the index. -/
theorem parseArrayKey_bracket (k : String) (i : Nat)
    (hk : ∀ c ∈ k.data, c ≠ '[' ∧ c ≠ ']') :
    parseArrayKey (k ++ "[" ++ natDec i ++ "]") = .ok (k, some (i : Int)) := by
  rcases natDec_digits i with ⟨hne, hall⟩
  have hdig : ∀ c ∈ (natDec i).data, isDigitCh c = true := by
    intro c hc
    exact List.all_eq_true.mp hall c hc
  have hdata : (k ++ "[" ++ natDec i ++ "]").data =
      k.data ++ '[' :: ((natDec i).data ++ [']']) := by
    rw [string_data_append, string_data_append, string_data_append]
    simp [show ("[" : String).data = ['['] from rfl,
      show ("]" : String).data = [']'] from rfl]
  have hstart : indexOfCh '[' (k ++ "[" ++ natDec i ++ "]").data =
      some k.data.length := by
    rw [hdata]
    exact indexOfCh_first '[' k.data _ fun c hc => (hk c hc).1
  have hstop : indexOfCh ']' (k ++ "[" ++ natDec i ++ "]").data =
      some (k.data.length + 1 + (natDec i).data.length) := by
    have hshape : k.data ++ '[' :: ((natDec i).data ++ [']']) =
        (k.data ++ '[' :: (natDec i).data) ++ ']' :: [] := by
      simp
    rw [hdata, hshape]
    have hclean : ∀ c ∈ k.data ++ '[' :: (natDec i).data, c ≠ ']' := by
      intro c hc
      rcases List.mem_append.mp hc with hc | hc
      · exact (hk c hc).2
      · rcases List.mem_cons.mp hc with hc | hc
        · rw [hc]; decide
        · exact (digit_ne_special c (hdig c hc)).2.2.1
    rw [indexOfCh_first ']' _ _ hclean]
    simp
    omega
  simp only [parseArrayKey, hstart, hstop]
  rw [if_neg
    (show ¬ (k.data.length + 1 + (natDec i).data.length < k.data.length) by
      omega)]
  have hkeyPart : (k ++ "[" ++ natDec i ++ "]").data.take k.data.length =
      k.data := by
    rw [hdata]
    exact List.take_left _ _
  have hidxPart :
      ((k ++ "[" ++ natDec i ++ "]").data.take
          (k.data.length + 1 + (natDec i).data.length)).drop
        (k.data.length + 1) = (natDec i).data := by
    rw [hdata]
    have hshape : k.data ++ '[' :: ((natDec i).data ++ [']']) =
        ((k.data ++ ['[']) ++ (natDec i).data) ++ [']'] := by
      simp
    rw [hshape]
    have hlen : ((k.data ++ ['[']) ++ (natDec i).data).length =
        k.data.length + 1 + (natDec i).data.length := by
      simp
      omega
    rw [← hlen, List.take_left]
    have hlen2 : (k.data ++ ['[']).length = k.data.length + 1 := by simp
    rw [← hlen2, List.drop_left]
  rw [hkeyPart, hidxPart, if_neg (by simpa using hne), parseGoInt_natDec]

/-! ### Resolution lemmas -/

/-- Resolution processes token lists compositionally. -/
theorem resolvePath_append (t1 t2 : List String) :
    ∀ doc : Json, resolvePath doc (t1 ++ t2) =
      (resolvePath doc t1).bind fun m => resolvePath m t2 := by
  induction t1 with
  | nil => intro doc; simp [resolvePath]
  | cons tok rest ih =>
    intro doc
    simp only [List.cons_append, resolvePath]
    cases hpk : parseArrayKey tok with
    | error e => simp
    | ok kv =>
      obtain ⟨key, optIdx⟩ := kv
      cases optIdx with
      | none =>
        dsimp only
        cases doc with
        | obj fields =>
          dsimp only
          cases hlf : lookupField fields key with
          | none => simp
          | some child => simp [ih]
        | null => simp
        | bool b => simp
        | num q => simp
        | str s => simp
        | arr elems => simp
      | some idx =>
        dsimp only
        cases doc with
        | obj fields =>
          dsimp only
          cases hlf : lookupField fields key with
          | none => simp
          | some child =>
            cases child with
            | arr elems =>
              dsimp only
              by_cases hb : 0 ≤ idx ∧ idx.toNat < elems.length
              · rw [dif_pos hb, dif_pos hb]; exact ih _
              · rw [dif_neg hb, dif_neg hb]; simp
            | null => simp
            | bool b => simp
            | num q => simp
            | str s => simp
            | obj fs => simp
        | arr elems =>
          dsimp only
          by_cases hb : 0 ≤ idx ∧ idx.toNat < elems.length
          · rw [dif_pos hb, dif_pos hb]; exact ih _
          · rw [dif_neg hb, dif_neg hb]; simp
        | null => simp
        | bool b => simp
        | num q => simp
        | str s => simp

/-- Lookup of a present key under duplicate-free keys. -/
theorem lookupField_of_mem :
    ∀ fields : List (String × Json), ∀ k : String, ∀ v : Json,
      (k, v) ∈ fields → (fields.map Prod.fst).Nodup →
        lookupField fields k = some v
  | [], k, v, hmem, _ => absurd hmem (by simp)
  | (k1, v1) :: rest, k, v, hmem, hnd => by
    rw [List.map_cons, List.nodup_cons] at hnd
    by_cases hk : k1 = k
    · have hv : v1 = v := by
        rcases List.mem_cons.mp hmem with heq | htail
        · exact (Prod.mk.injEq _ _ _ _ ▸ heq.symm).2
        · exfalso
          apply hnd.1
          rw [hk]
          exact List.mem_map.mpr ⟨(k, v), htail, rfl⟩
      rw [lookupField, List.find?_cons_of_pos _ (by simpa using hk)]
      simp [hv]
    · have htail : (k, v) ∈ rest := by
        rcases List.mem_cons.mp hmem with heq | htail
        · exact absurd (congrArg Prod.fst heq.symm) hk
        · exact htail
      rw [lookupField, List.find?_cons_of_neg _ (by simpa using hk)]
      exact lookupField_of_mem rest k v htail hnd.2

/-! ### The round-trip documents and the flatten invariant -/

/-- An object key that survives the path syntax: nonempty, and free of
dots and brackets. -/
def goodKey (k : String) : Prop :=
  k ≠ "" ∧ ∀ c ∈ k.data, c ≠ '.' ∧ c ≠ '[' ∧ c ≠ ']'

/-- Documents for which the locator syntax is faithful: object keys are
good and duplicate-free, and no array element is itself an array. -/
inductive GoodDoc : Json → Prop
  | null : GoodDoc .null
  | bool (b : Bool) : GoodDoc (.bool b)
  | num (q : ℚ) : GoodDoc (.num q)
  | str (s : String) : GoodDoc (.str s)
  | arr (elems : List Json) (hne : ∀ e ∈ elems, e.isArr = false)
      (h : ∀ e ∈ elems, GoodDoc e) : GoodDoc (.arr elems)
  | obj (fields : List (String × Json)) (hk : ∀ kv ∈ fields, goodKey kv.1)
      (hnd : (fields.map Prod.fst).Nodup)
      (h : ∀ kv ∈ fields, GoodDoc kv.2) : GoodDoc (.obj fields)

/-- Members of the field loop come from one field. -/
theorem mem_flattenFields (pre : String) (anc : List Json) :
    ∀ l : List (String × Json), ∀ r ∈ flattenFields pre anc l,
      ∃ kv, kv ∈ l ∧
        r ∈ flatten (if pre = "" then kv.1 else pre ++ "." ++ kv.1) anc kv.2
  | [], r, hr => absurd hr (by simp [flattenFields])
  | (k, v) :: rest, r, hr => by
    rw [show flattenFields pre anc ((k, v) :: rest) =
        flatten (if pre = "" then k else pre ++ "." ++ k) anc v ++
          flattenFields pre anc rest by simp [flattenFields]] at hr
    rcases List.mem_append.mp hr with hr | hr
    · exact ⟨(k, v), List.Mem.head _, hr⟩
    · rcases mem_flattenFields pre anc rest r hr with ⟨kv, hkv, hmem⟩
      exact ⟨kv, List.Mem.tail _ hkv, hmem⟩

/-- Members of the element loop come from one element, at the offset
index. -/
theorem mem_flattenElems (pre : String) (anc : List Json) :
    ∀ l : List Json, ∀ i0 : Nat, ∀ r ∈ flattenElems pre anc i0 l,
      ∃ j, ∃ hj : j < l.length,
        r ∈ flatten (pre ++ "[" ++ natDec (i0 + j) ++ "]") anc l[j]
  | [], i0, r, hr => absurd hr (by simp [flattenElems])
  | v :: rest, i0, r, hr => by
    rw [show flattenElems pre anc i0 (v :: rest) =
        flatten (pre ++ "[" ++ natDec i0 ++ "]") anc v ++
          flattenElems pre anc (i0 + 1) rest by simp [flattenElems]] at hr
    rcases List.mem_append.mp hr with hr | hr
    · exact ⟨0, by simp, by simpa using hr⟩
    · rcases mem_flattenElems pre anc rest (i0 + 1) r hr with ⟨j, hj, hmem⟩
      refine ⟨j + 1, by simpa using hj, ?_⟩
      rw [show i0 + (j + 1) = i0 + 1 + j by omega]
      simpa using hmem

/-- Character-list shape of a key-plus-index token. -/
theorem bracket_token_data (k : String) (i : Nat) :
    (k ++ "[" ++ natDec i ++ "]").data =
      k.data ++ '[' :: ((natDec i).data ++ [']']) := by
  rw [string_data_append, string_data_append, string_data_append]
  simp [show ("[" : String).data = ['['] from rfl,
    show ("]" : String).data = [']'] from rfl]

/-- No character of a key-plus-index token is a dot. -/
theorem bracket_token_nodot (k : String) (i : Nat)
    (hgk : ∀ c ∈ k.data, c ≠ '.') :
    ∀ c ∈ (k ++ "[" ++ natDec i ++ "]").data, c ≠ '.' := by
  rw [bracket_token_data]
  intro c hc
  rcases List.mem_append.mp hc with hc | hc
  · exact hgk c hc
  · rcases List.mem_cons.mp hc with hc | hc
    · rw [hc]; decide
    · rcases List.mem_append.mp hc with hc | hc
      · exact (digit_ne_special c
          (List.all_eq_true.mp (natDec_digits i).2 c hc)).1
      · rcases List.mem_singleton.mp hc with rfl
        decide

/-- Extending a path by an object key appends one token. -/
theorem split_child_key (pre k : String) (hgk : goodKey k) :
    splitPathTokens (if pre = "" then k else pre ++ "." ++ k) =
      splitPathTokens pre ++ [k] := by
  have hknd : ∀ c ∈ k.data, c ≠ '.' := fun c hc => (hgk.2 c hc).1
  by_cases hpre : pre = ""
  · rw [if_pos hpre, hpre]
    rw [splitPathTokens, if_neg hgk.1, splitOnDotCh_nodot k.data hknd]
    simp [splitPathTokens, string_mk_data]
  · rw [if_neg hpre]
    have hdata : (pre ++ "." ++ k).data = pre.data ++ '.' :: k.data := by
      rw [string_data_append, string_data_append]
      simp [show ("." : String).data = ['.'] from rfl]
    have hne : pre ++ "." ++ k ≠ "" := by
      rw [Ne, string_eq_empty_iff, hdata]
      simp
    rw [splitPathTokens, if_neg hne, hdata,
      splitOnDotCh_append_dot pre.data k.data hknd, List.map_append,
      splitPathTokens, if_neg hpre]
    simp [string_mk_data]

/-- Extending a path into an array element appends the index to the
final token. -/
theorem split_child_bracket (pre k : String) (i : Nat)
    (hknd : ∀ c ∈ k.data, c ≠ '.') :
    splitPathTokens ((if pre = "" then k else pre ++ "." ++ k) ++
        "[" ++ natDec i ++ "]") =
      splitPathTokens pre ++ [k ++ "[" ++ natDec i ++ "]"] := by
  have htokdot : ∀ c ∈ (k ++ "[" ++ natDec i ++ "]").data, c ≠ '.' :=
    bracket_token_nodot k i hknd
  have htokne : k ++ "[" ++ natDec i ++ "]" ≠ "" := by
    rw [Ne, string_eq_empty_iff, bracket_token_data]
    simp
  by_cases hpre : pre = ""
  · rw [if_pos hpre, hpre]
    rw [splitPathTokens, if_neg htokne, splitOnDotCh_nodot _ htokdot]
    simp [splitPathTokens, string_mk_data]
    rw [← bracket_token_data k i, string_mk_data]
  · rw [if_neg hpre]
    have hdata : ((pre ++ "." ++ k) ++ "[" ++ natDec i ++ "]").data =
        pre.data ++ '.' :: (k ++ "[" ++ natDec i ++ "]").data := by
      rw [bracket_token_data]
      simp only [string_data_append]
      simp [show ("." : String).data = ['.'] from rfl,
        show ("[" : String).data = ['['] from rfl,
        show ("]" : String).data = [']'] from rfl]
    have hne : (pre ++ "." ++ k) ++ "[" ++ natDec i ++ "]" ≠ "" := by
      rw [Ne, string_eq_empty_iff, hdata]
      simp
    rw [splitPathTokens, if_neg hne, hdata,
      splitOnDotCh_append_dot pre.data _ htokdot, List.map_append,
      splitPathTokens, if_neg hpre]
    simp [string_mk_data]
    rw [← bracket_token_data k i, string_mk_data]

/-- The value of an object field is smaller than the object. -/
theorem sizeOf_field_lt (fields : List (String × Json)) (k : String)
    (v : Json) (h : (k, v) ∈ fields) : sizeOf v < sizeOf (Json.obj fields) := by
  have h1 := List.sizeOf_lt_of_mem h
  have h2 : sizeOf (Json.obj fields) = 1 + sizeOf fields := by simp
  have h3 : sizeOf ((k, v) : String × Json) = 1 + sizeOf k + sizeOf v := by
    simp
  omega

/-- An element of an array is smaller than the array. -/
theorem sizeOf_elem_lt (elems : List Json) (e : Json) (h : e ∈ elems) :
    sizeOf e < sizeOf (Json.arr elems) := by
  have h1 := List.sizeOf_lt_of_mem h
  have h2 : sizeOf (Json.arr elems) = 1 + sizeOf elems := by simp
  omega

/-- Main invariant: if the current document node is reachable from the
root at the accumulated path (and, for arrays, each element is reachable
at the index-extended path), then every flattened leaf resolves from the
root to itself. -/
theorem flatten_resolve_aux (root : Json) :
    ∀ n : Nat, ∀ d : Json, sizeOf d ≤ n → GoodDoc d →
      ∀ (pre : String) (anc : List Json),
        resolvePath root (splitPathTokens pre) = some d →
        (∀ elems, d = Json.arr elems → ∀ i, ∀ hi : i < elems.length,
          resolvePath root
              (splitPathTokens (pre ++ "[" ++ natDec i ++ "]")) =
            some elems[i]) →
        ∀ r ∈ flatten pre anc d,
          ∃ leaf,
            resolvePath root (splitPathTokens r.referencePath) = some leaf ∧
              leaf.isLeaf = true ∧ r.value = leafToValue leaf := by
  intro n
  induction n with
  | zero =>
    intro d hsz
    exfalso
    cases d <;> simp at hsz
  | succ n ih =>
    intro d hsz hgd pre anc hres harr r hr
    cases hgd with
    | null =>
      rw [show flatten pre anc Json.null =
          [{ value := leafToValue Json.null, referencePath := pre,
             urlLocation := 0, ancestors := anc,
             sourceLocation := SourceLocation.bodyJson }] from by
        simp [flatten]] at hr
      rcases List.mem_singleton.mp hr with rfl
      exact ⟨Json.null, hres, rfl, rfl⟩
    | bool b =>
      rw [show flatten pre anc (Json.bool b) =
          [{ value := leafToValue (Json.bool b), referencePath := pre,
             urlLocation := 0, ancestors := anc,
             sourceLocation := SourceLocation.bodyJson }] from by
        simp [flatten]] at hr
      rcases List.mem_singleton.mp hr with rfl
      exact ⟨Json.bool b, hres, rfl, rfl⟩
    | num q =>
      rw [show flatten pre anc (Json.num q) =
          [{ value := leafToValue (Json.num q), referencePath := pre,
             urlLocation := 0, ancestors := anc,
             sourceLocation := SourceLocation.bodyJson }] from by
        simp [flatten]] at hr
      rcases List.mem_singleton.mp hr with rfl
      exact ⟨Json.num q, hres, rfl, rfl⟩
    | str s =>
      rw [show flatten pre anc (Json.str s) =
          [{ value := leafToValue (Json.str s), referencePath := pre,
             urlLocation := 0, ancestors := anc,
             sourceLocation := SourceLocation.bodyJson }] from by
        simp [flatten]] at hr
      rcases List.mem_singleton.mp hr with rfl
      exact ⟨Json.str s, hres, rfl, rfl⟩
    | arr elems hne hch =>
      rw [show flatten pre anc (Json.arr elems) =
          flattenElems pre (anc ++ [Json.arr elems]) 0 elems from by
        simp [flatten]] at hr
      rcases mem_flattenElems _ _ elems 0 r hr with ⟨j, hj, hmem⟩
      rw [Nat.zero_add] at hmem
      have hjm : elems[j] ∈ elems := List.getElem_mem hj
      have hres2 : resolvePath root
          (splitPathTokens (pre ++ "[" ++ natDec j ++ "]")) =
            some elems[j] := harr elems rfl j hj
      have harr2 : ∀ elems2, elems[j] = Json.arr elems2 →
          ∀ i, ∀ hi : i < elems2.length,
            resolvePath root (splitPathTokens
                (pre ++ "[" ++ natDec j ++ "]" ++ "[" ++ natDec i ++ "]")) =
              some elems2[i] := by
        intro elems2 heq i hi
        exfalso
        have hf := hne elems[j] hjm
        rw [heq] at hf
        simp [Json.isArr] at hf
      have hsz2 : sizeOf (elems[j]) ≤ n := by
        have := sizeOf_elem_lt elems elems[j] hjm
        omega
      exact ih elems[j] hsz2 (hch elems[j] hjm) _ _ hres2 harr2 r hmem
    | obj fields hk hnd hch =>
      rw [show flatten pre anc (Json.obj fields) =
          flattenFields pre (anc ++ [Json.obj fields]) fields from by
        simp [flatten]] at hr
      rcases mem_flattenFields _ _ fields r hr with ⟨⟨k, v⟩, hkv, hmem⟩
      have hgk : goodKey k := hk (k, v) hkv
      have hres2 : resolvePath root
          (splitPathTokens (if pre = "" then k else pre ++ "." ++ k)) =
            some v := by
        rw [split_child_key pre k hgk, resolvePath_append, hres]
        show resolvePath (Json.obj fields) [k] = some v
        simp only [resolvePath]
        rw [parseArrayKey_plain k fun c hc => (hgk.2 c hc).2.1]
        dsimp only
        rw [lookupField_of_mem fields k v hkv hnd]
      have harr2 : ∀ elems, v = Json.arr elems →
          ∀ i, ∀ hi : i < elems.length,
            resolvePath root (splitPathTokens
                ((if pre = "" then k else pre ++ "." ++ k) ++
                  "[" ++ natDec i ++ "]")) = some elems[i] := by
        intro elems heq i hi
        rw [split_child_bracket pre k i fun c hc => (hgk.2 c hc).1,
          resolvePath_append, hres]
        show resolvePath (Json.obj fields) [k ++ "[" ++ natDec i ++ "]"] =
          some elems[i]
        simp only [resolvePath]
        rw [parseArrayKey_bracket k i
          fun c hc => ⟨(hgk.2 c hc).2.1, (hgk.2 c hc).2.2⟩]
        dsimp only
        rw [lookupField_of_mem fields k v hkv hnd, heq]
        dsimp only
        rw [dif_pos ⟨by omega, by omega⟩]
        simp [resolvePath]
      have hsz2 : sizeOf v ≤ n := by
        have := sizeOf_field_lt fields k v hkv
        omega
      exact ih v hsz2 (hch (k, v) hkv) _ _ hres2 harr2 r hmem

/-- C6 amended — for every JSON document whose object keys are nonempty,
free of `.`/`[`/`]`, and duplicate-free, and in which no array element is
itself an array, flattening with `flatten` and then resolving each
produced locator path (dot-joined object keys, `[i]`-suffixed array
indices) against the same document yields exactly the original leaf
value. -/
theorem flatten_roundtrip (d : Json) (hgd : GoodDoc d) (r : ValueRef)
    (hr : r ∈ flatten "" [] d) :
    ∃ leaf, resolvePath d (splitPathTokens r.referencePath) = some leaf ∧
      leaf.isLeaf = true ∧ r.value = leafToValue leaf := by
  refine flatten_resolve_aux d (sizeOf d) d le_rfl hgd "" [] ?_ ?_ r hr
  · simp [splitPathTokens, resolvePath]
  · intro elems heq i hi
    subst heq
    have hempty : ∀ c ∈ ("" : String).data, c ≠ '.' := by
      intro c hc
      cases hc
    have htokne : ("" : String) ++ "[" ++ natDec i ++ "]" ≠ "" := by
      rw [Ne, string_eq_empty_iff, bracket_token_data]
      simp
    have hsp : splitPathTokens (("" : String) ++ "[" ++ natDec i ++ "]") =
        [("" : String) ++ "[" ++ natDec i ++ "]"] := by
      rw [splitPathTokens, if_neg htokne,
        splitOnDotCh_nodot _ (bracket_token_nodot "" i hempty)]
      simp [string_mk_data]
      have htd : ("[" ++ natDec i ++ "]" : String).data =
          '[' :: ((natDec i).data ++ [']']) := by
        rw [string_data_append, string_data_append]
        simp [show ("[" : String).data = ['['] from rfl,
          show ("]" : String).data = [']'] from rfl]
      rw [← htd, string_mk_data]
    rw [hsp]
    simp only [resolvePath]
    rw [parseArrayKey_bracket "" i (by intro c hc; cases hc)]
    dsimp only
    rw [dif_pos ⟨by omega, by omega⟩]
    simp [resolvePath]

/-- Example fixture: the basic-chaining response document. -/
def exDoc : Json :=
  .obj [("token", .str "abc123")]

/-- Example fixture: the single leaf reference flattened from `exDoc`. -/
def exLeafRef : ValueRef :=
  { value := .vStr "abc123", referencePath := "token",
    ancestors := [exDoc], sourceLocation := .bodyJson }

/-- C6 witness: the round trip on the concrete document `exDoc` and its
flattened leaf at path `token`. -/
theorem flatten_roundtrip_witness :
    ∃ leaf, resolvePath exDoc (splitPathTokens exLeafRef.referencePath) =
        some leaf ∧ leaf.isLeaf = true ∧ exLeafRef.value = leafToValue leaf :=
  flatten_roundtrip exDoc
    (GoodDoc.obj _
      (fun kv hkv => by
        cases hkv with
        | head => exact ⟨by decide, by decide⟩
        | tail _ hh => cases hh)
      (by decide)
      (fun kv hkv => by
        cases hkv with
        | head => exact GoodDoc.str _
        | tail _ hh => cases hh))
    exLeafRef
    (by simp [flatten, flattenFields, exDoc, exLeafRef, leafToValue])

/-! ### Locator stabilization (`updateComplexPaths`, `var_paths.go`) -/

/-- `keepLevels` from `var_paths.go`: keep up to `levels` levels below
the node, replacing anything deeper with the placeholder string `...`.
(The callers only ever pass nonnegative level counts, so the Go `int` is
modelled as `Nat`; the Go error return is always `nil` and is dropped.) -/
def keepLevels : Nat → Json → Json
  | 0, _ => .str "..."
  | levels + 1, node =>
    match node with
    | .obj fields => .obj (fields.map fun kv => (kv.1, keepLevels levels kv.2))
    | .arr elems => .arr (elems.map fun v => keepLevels levels v)
    | prim => prim

/-- `pruneJSON` from `var_paths.go`: descend the document along the path
tokens, keeping only the addressed branch; at the leaf keep `levels`
levels.  Missing keys yield an empty object, out-of-range indices a
`null` placeholder, and `parseArrayKey` failures propagate as errors. -/
def pruneJSON (node : Json) :
    List String → Nat → Nat → Except String Json
  | [], _, levels => .ok (keepLevels levels node)
  | tok :: rest, depth, levels =>
    match node with
    | .obj fields =>
      match parseArrayKey tok with
      | .error e => .error e
      | .ok (key, optIdx) =>
        match lookupField fields key with
        | none => .ok (.obj [])
        | some child =>
          match optIdx with
          | none =>
            (pruneJSON child rest (depth + 1) levels).map fun pruned =>
              .obj [(key, pruned)]
          | some idx =>
            match child with
            | .arr arrElems =>
              if h : 0 ≤ idx ∧ idx.toNat < arrElems.length then
                (pruneJSON (arrElems.get ⟨idx.toNat, h.2⟩) rest (depth + 1)
                    levels).map fun pruned => .obj [(key, .arr [pruned])]
              else .ok (.obj [(key, .null)])
            | other => .ok (.obj [(key, other)])
    | .arr elems =>
      match parseArrayKey tok with
      | .error e => .error e
      | .ok (_, none) => .ok (.arr elems)
      | .ok (_, some idx) =>
        if h : 0 ≤ idx ∧ idx.toNat < elems.length then
          (pruneJSON (elems.get ⟨idx.toNat, h.2⟩) rest (depth + 1)
              levels).map fun pruned =>
            .arr (elems.mapIdx fun i _ =>
              if i = idx.toNat then pruned else .null)
        else .ok .null
    | prim => .ok prim

/-- `extractPartialJSON` from `var_paths.go`. -/
def extractPartialJSON (root : Json) (targetPath : String) (levels : Nat) :
    Except String Json :=
  pruneJSON root (splitPathTokens targetPath) 0 levels

/-- `updateComplexPaths` from `var_paths.go`.  `parseJson` stands for
`encoding/json.Unmarshal` and `resolver i` for the locator-resolution
collaborator's reply to the query built for the chain at position `i`
(`none` = the call failed).  Every guard that the source handles with
`continue` leaves the chain unchanged and moves on; a non-empty reply
overwrites the origin usage's `ReferencePath`.  (A chain whose
`ValueSource.Source` is nil would crash the Go code at the `Entry`
dereference; detected chains always carry a source, and the model skips
such a chain instead.) -/
def updateComplexPaths (calls : List CallDetails)
    (parseJson : String → Option Json) (resolver : Nat → Option String)
    (chains : List ChainedValueContext) : List ChainedValueContext :=
  chains.mapIdx fun i c =>
    match c.valueSource with
    | none => c
    | some vs =>
      if vs.sourceType ≠ SourceType.response then c
      else
        match (vs.source.bind fun ci => (calls[ci]?).bind fun cd => cd.entry) with
        | none => c
        | some respEntry =>
          if respEntry.response.content.text = "" then c
          else
            match parseJson respEntry.response.content.text with
            | none => c
            | some fullResponse =>
              match extractPartialJSON fullResponse vs.referencePath 4 with
              | .error _ => c
              | .ok _ =>
                match resolver i with
                | none => c
                | some newPath =>
                  if newPath = "" then c
                  else
                    { c with
                      valueSource := some ({ vs with referencePath := newPath }) }

/-- C8 — in `updateComplexPaths`, when the per-chain guards pass and the
locator-resolution collaborator call fails (`none`) or returns an empty
result, the origin usage's `ReferencePath` is left unchanged; when it
returns a non-empty path, the `ReferencePath` is overwritten with it;
and in every case the remaining chains are still processed (one output
chain per input chain). -/
theorem updateComplexPaths_spec (calls : List CallDetails)
    (parseJson : String → Option Json) (resolver : Nat → Option String)
    (chains : List ChainedValueContext) (i : Nat) (c : ChainedValueContext)
    (vs : ValueRef) (respEntry : Entry) (fullResponse pruned : Json)
    (hc : chains[i]? = some c) (hvs : c.valueSource = some vs)
    (hst : vs.sourceType = SourceType.response)
    (hsrc : (vs.source.bind fun ci => (calls[ci]?).bind fun cd => cd.entry) =
      some respEntry)
    (hne : respEntry.response.content.text ≠ "")
    (hparse : parseJson respEntry.response.content.text = some fullResponse)
    (hprune : extractPartialJSON fullResponse vs.referencePath 4 = .ok pruned) :
    (updateComplexPaths calls parseJson resolver chains).length =
        chains.length ∧
      (updateComplexPaths calls parseJson resolver chains)[i]? =
        some (match resolver i with
          | none => c
          | some newPath =>
            if newPath = "" then c
            else
              { c with
                valueSource := some ({ vs with referencePath := newPath }) }) := by
  constructor
  · simp [updateComplexPaths]
  · rw [updateComplexPaths, List.getElem?_mapIdx, hc]
    refine congrArg some ?_
    simp only [hvs]
    rw [if_neg (by rw [hst]; simp), hsrc]
    dsimp only
    rw [if_neg (by simpa using hne), hparse]
    dsimp only
    rw [hprune]

/-- Example fixture: a response-side origin usage recorded at locator
path `token` in call 0. -/
def exVsRef : ValueRef :=
  { value := .vStr "abc123", referencePath := "token",
    sourceType := .response, source := some 0 }

/-- Example fixture: the response content carrying the origin JSON. -/
def exContentForPaths : Content :=
  { mimeType := "application/json", text := "tjson" }

/-- Example fixture: the HAR entry whose response carried `exDoc`. -/
def exEntryForPaths : Entry :=
  { response := { content := exContentForPaths } }

/-- Example fixture: the call-details arena for the stabilization
witness. -/
def exCallsForPaths : List CallDetails :=
  [{ entry := some exEntryForPaths }]

/-- Example fixture: a detected chain whose origin usage is `exVsRef`. -/
def exChainForPaths : ChainedValueContext :=
  { value := "abc123", allUsages := [exVsRef], valueSource := some exVsRef }

/-- C8 witness: on the concrete chain `exChainForPaths`, with a resolver
answering `newPath`, all guards pass and the spec theorem applies. -/
theorem updateComplexPaths_spec_witness :
    (updateComplexPaths exCallsForPaths (fun _ => some exDoc)
          (fun _ => some "newPath") [exChainForPaths]).length =
        ([exChainForPaths] : List ChainedValueContext).length ∧
      (updateComplexPaths exCallsForPaths (fun _ => some exDoc)
          (fun _ => some "newPath") [exChainForPaths])[0]? =
        some (match (fun (_ : Nat) => some "newPath") 0 with
          | none => exChainForPaths
          | some newPath =>
            if newPath = "" then exChainForPaths
            else
              { exChainForPaths with
                valueSource :=
                  some ({ exVsRef with referencePath := newPath }) }) :=
  updateComplexPaths_spec exCallsForPaths (fun _ => some exDoc)
    (fun _ => some "newPath") [exChainForPaths] 0 exChainForPaths exVsRef
    exEntryForPaths exDoc (Json.obj [("token", Json.str "abc123")])
    rfl rfl rfl rfl (by decide) rfl (by rfl)

/-! ### HAR processing (`processHar`, `processBody`, `ExtractURLStrings`) -/

/-- Components of a parsed URL, as read off Go `net/url.Parse`'s result
by `ExtractURLStrings`: `Path` and the decoded `Query` map. -/
structure UrlParts where
  scheme : String := ""
  host : String := ""
  path : String := ""
  query : List (String × List String) := []

/-- The Go standard-library parsers used by the extractor, passed in as
collaborators: `encoding/json.Unmarshal`, `net/url.ParseQuery`,
`net/url.Parse` and `path.Clean`. -/
structure Stdlib where
  parseJson : String → Option Json := fun _ => none
  parseQuery : String → Option (List (String × List String)) := fun _ => none
  parseUrl : String → Option UrlParts := fun _ => none
  pathClean : String → String := id

/-- `FlattenJSON` from the HAR-processing source file: unmarshal, then
flatten from an empty prefix with no ancestors. -/
def FlattenJSON (parseJson : String → Option Json) (data : String) :
    Except String (List ValueRef) :=
  match parseJson data with
  | none => .error "invalid JSON"
  | some jsonData => .ok (flatten "" [] jsonData)

/-- Go `strings.Split(s, "/")` character-list core. -/
def splitOnSlashCh : List Char → List (List Char)
  | [] => [[]]
  | c :: rest =>
    if c = '/' then [] :: splitOnSlashCh rest
    else
      match splitOnSlashCh rest with
      | [] => [[c]]
      | g :: gs => (c :: g) :: gs

/-- `processBody` from the HAR-processing source file: JSON bodies are
flattened (empty/whitespace-only bodies yield nothing, parse failures are
errors), form bodies decode to `key[i]` paths, anything else yields
nothing. -/
def processBody (std : Stdlib) (body contentType : String) :
    Except String (List ValueRef) :=
  if contentType = "application/json" then
    if goTrimSpace body = "" then .ok []
    else FlattenJSON std.parseJson body
  else if contentType = "application/x-www-form-urlencoded" then
    match std.parseQuery body with
    | none => .error "invalid form body"
    | some formValues =>
      .ok (formValues.flatMap fun kv =>
        kv.2.enum.map fun iv =>
          { value := GoValue.vStr iv.2,
            referencePath := kv.1 ++ "[" ++ natDec iv.1 ++ "]",
            sourceLocation := SourceLocation.bodyForm })
  else .ok []

/-- The per-key query loop of `ExtractURLStrings`: one reference per
query value with path `query.<key>[<j>]`, threading the running
`queryIndex` counter through `UrlLocation`. -/
def queryRefs (qi0 : Nat) (q : List (String × List String)) : List ValueRef :=
  (q.foldl
    (fun acc kv =>
      (acc.1 ++ (kv.2.enum.map fun jv =>
        { value := GoValue.vStr jv.2,
          referencePath := "query." ++ kv.1 ++ "[" ++ natDec jv.1 ++ "]",
          urlLocation := acc.2 + jv.1 }),
       acc.2 + kv.2.length))
    (([], qi0) : List ValueRef × Nat)).1

/-- `ExtractURLStrings` from the HAR-processing source file (the
version cited by the claims, without a host reference): each non-empty
cleaned path segment becomes one value keyed by `path[i]`, and each
query value one keyed by `query.<key>[<j>]`. -/
def ExtractURLStrings (std : Stdlib) (rawURL : String) :
    Except String (List ValueRef) :=
  match std.parseUrl rawURL with
  | none => .error "invalid URL"
  | some u =>
    let segments := (splitOnSlashCh (std.pathClean u.path).data).map String.mk
    let segRefs := segments.enum.flatMap fun iseg =>
      if iseg.2 = "" then []
      else
        [{ value := GoValue.vStr iseg.2,
           referencePath := "path[" ++ natDec iseg.1 ++ "]",
           urlLocation := iseg.1 }]
    .ok (segRefs ++ queryRefs segments.length u.query)

/-- The request body text read by `processHar`. -/
def reqBodyOf (entry : Entry) : String :=
  match entry.request.postData with
  | some pd => if pd.text ≠ "" then pd.text else ""
  | none => ""

/-- The request MIME type read by `processHar`. -/
def reqMimeOf (entry : Entry) : String :=
  match entry.request.postData with
  | some pd => pd.mimeType
  | none => ""

/-- Processing of one HAR entry inside the loop of `processHar`; `idx`
is the entry's position, used as the arena index modelling the
`&callDetails` back-pointer.  Body, URL and header extraction failures
are logged in the source and contribute no values. -/
def processEntry (std : Stdlib) (idx : Nat) (entry : Entry) : CallDetails :=
  let reqBodyRefs :=
    match processBody std (reqBodyOf entry) (reqMimeOf entry) with
    | .error _ => []
    | .ok l => l
  let reqDetails :=
    (reqBodyRefs ++ processHeaders entry.request.headers).map fun r =>
      { r with source := some idx, sourceType := SourceType.request }
  let respBodyRefs :=
    match processBody std entry.response.content.text
        entry.response.content.mimeType with
    | .error _ => []
    | .ok l => l
  let respDetails :=
    (respBodyRefs ++ processHeaders entry.response.headers).map fun r =>
      { r with source := some idx, sourceType := SourceType.response }
  let urlRefs :=
    match ExtractURLStrings std entry.request.url with
    | .error _ => []
    | .ok l => l
  let urlDetails := urlRefs.map fun r =>
    { r with source := some idx, sourceType := SourceType.request }
  { requestDetails := reqDetails ++ urlDetails,
    responseDetails := respDetails,
    entry := some entry }

/-- `processHar` from the HAR-processing source file: one `CallDetails`
per entry, in order. -/
def processHar (std : Stdlib) (har : HAR) : List CallDetails :=
  har.log.entries.mapIdx fun i e => processEntry std i e

/-- The entry with its request body removed (what a request body that
contributes zero values is equivalent to). -/
def eraseReqBody (entry : Entry) : Entry :=
  { entry with request := { entry.request with postData := none } }

/-- The entry with its response body removed (text and content type). -/
def eraseRespBody (entry : Entry) : Entry :=
  { entry with response :=
      { entry.response with content := {} } }

/-- C9 — a body that claims a supported content-type but fails to parse
contributes zero extracted values while the same interaction's headers
and URL are still extracted normally, and the failure is not fatal:
every entry still yields its `CallDetails`, identical to what an
entry without that body would yield. -/
theorem processHar_body_failure_soft (std : Stdlib) (har : HAR) (i : Nat)
    (entry : Entry) (hi : har.log.entries[i]? = some entry) :
    (processHar std har).length = har.log.entries.length ∧
      ((∃ e, processBody std (reqBodyOf entry) (reqMimeOf entry) = .error e) →
        (processHar std har)[i]? =
          some { processEntry std i (eraseReqBody entry) with
                 entry := some entry }) ∧
      ((∃ e, processBody std entry.response.content.text
            entry.response.content.mimeType = .error e) →
        (processHar std har)[i]? =
          some { processEntry std i (eraseRespBody entry) with
                 entry := some entry }) := by
  refine ⟨by simp [processHar], ?_, ?_⟩
  · rintro ⟨e, herr⟩
    rw [processHar, List.getElem?_mapIdx, hi]
    refine congrArg some ?_
    have hbody : reqBodyOf (eraseReqBody entry) = "" := rfl
    have hmime : reqMimeOf (eraseReqBody entry) = "" := rfl
    simp only [processEntry, herr, eraseReqBody, hbody, hmime]
    rfl
  · rintro ⟨e, herr⟩
    rw [processHar, List.getElem?_mapIdx, hi]
    refine congrArg some ?_
    simp only [processEntry, herr, eraseRespBody]
    rfl

/-- Example fixture: a standard library in which every parser fails
(models unparseable inputs). -/
def exStd : Stdlib := {}

/-- Example fixture: request post data claiming JSON with an unparseable
body. -/
def exBadPostData : PostData :=
  { mimeType := "application/json", text := "xx" }

/-- Example fixture: an entry whose request body claims JSON but fails
to parse. -/
def exBadEntry : Entry :=
  { request := { url := "u", postData := some exBadPostData } }

/-- Example fixture: a one-entry capture containing `exBadEntry`. -/
def exBadHar : HAR :=
  { log := { entries := [exBadEntry] } }

/-- C9 witness: the fail-soft theorem instantiated on the concrete
one-entry capture `exBadHar` with failing parsers. -/
theorem processHar_body_failure_soft_witness :
    (processHar exStd exBadHar).length = exBadHar.log.entries.length ∧
      ((∃ e, processBody exStd (reqBodyOf exBadEntry) (reqMimeOf exBadEntry) =
          .error e) →
        (processHar exStd exBadHar)[0]? =
          some { processEntry exStd 0 (eraseReqBody exBadEntry) with
                 entry := some exBadEntry }) ∧
      ((∃ e, processBody exStd exBadEntry.response.content.text
            exBadEntry.response.content.mimeType = .error e) →
        (processHar exStd exBadHar)[0]? =
          some { processEntry exStd 0 (eraseRespBody exBadEntry) with
                 entry := some exBadEntry }) :=
  processHar_body_failure_soft exStd exBadHar 0 exBadEntry rfl

end Chainer
